import Mathlib

/-!
Verification of the parallel keyword-search core of `goit-cs-hw-04`.

The repository searches a list of text files for keywords, either with a pool
of threads sharing a lock-protected result dict (`main.py:thread_search`,
`main.py:parallel_file_search_threading`) or with a pool of processes sending
their local result dicts over a queue (`main.py:process_search`,
`main.py:parallel_file_search_multiprocessing`).  A second generation of the
code lives in `thread_search.py` / `process_search.py` and delegates the
per-file scan to `file_utils.search_keywords_in_file`.

Modelling conventions:
* A file system is a function `String → Option (List Char)`: `some content`
  is the decoded text stream of the file (after Python's text-mode newline
  translation, so `'\r'` does not occur in practice), `none` means the file
  does not exist or cannot be opened/read (the scanners catch that failure).
* Python dicts mapping keywords to location lists are association lists
  (`Dict` below) with Python's insertion-order semantics: assigning to an
  existing key keeps its position, a new key is appended at the end.
* Worker concurrency is serialized by the lock (thread path) or by the queue
  drain loop (process path): each worker folds its complete local dict into
  the shared/final dict atomically, so a run of the program corresponds to
  folding the per-shard local dicts in some permutation of the shard list
  (the completion order).  Theorems quantify over that permutation.
-/

/-- A Python dict from keyword to list of match locations, as an insertion
ordered association list. -/
abbrev Dict := List (String × List String)

/-- Python `d[k]` lookup (first entry with the key; dicts built by the code
never hold duplicate keys). -/
def dGet? : Dict → String → Option (List String)
  | [], _ => none
  | (k', v) :: rest, k => if k' = k then some v else dGet? rest k

/-- Lookup with default `[]`: the list of locations a dict holds for `k`. -/
def dGetD (d : Dict) (k : String) : List String :=
  (dGet? d k).getD []

/-- Python `d[k] = v`: overwrite in place if the key exists, else append the
new entry at the end (insertion order). -/
def dSet : Dict → String → List String → Dict
  | [], k, v => [(k, v)]
  | (k', v') :: rest, k, v =>
    if k' = k then (k, v) :: rest else (k', v') :: dSet rest k v

/-- The keys of a dict, in order. -/
def dKeys (d : Dict) : List String := d.map Prod.fst

/-- The dict has no duplicate keys (every dict the code builds satisfies
this). -/
def nodupKeys (d : Dict) : Prop := (dKeys d).Nodup

/-- `{keyword: [] for keyword in keywords}` — the scanners' initial result
dict (main.py line 20, file_utils.py line 232). -/
def dInitGo : Dict → List String → Dict
  | d, [] => d
  | d, kw :: rest => dInitGo (dSet d kw []) rest

/-- Initial result dict with one empty list per keyword. -/
def dInit (kws : List String) : Dict := dInitGo [] kws

/-- `{k: v for k, v in results.items() if v}` — drop keywords with no
matches (main.py line 31, file_utils.py line 253). -/
def dropEmpty (d : Dict) : Dict := d.filter (fun p => !p.2.isEmpty)

/-- The fold loop shared by `thread_search`, `process_search` and the
multiprocessing coordinator (main.py lines 127-136, 151-156, 223-226):
`for keyword, locations in src.items(): if keyword not in acc:
acc[keyword] = []; acc[keyword].extend(locations)`. -/
def dExtendGo : Dict → Dict → Dict
  | acc, [] => acc
  | acc, (k, v) :: rest => dExtendGo (dSet acc k (dGetD acc k ++ v)) rest

/-- Python substring test `needle in hay` on character lists. -/
def strIn (needle : List Char) (hay : List Char) : Bool :=
  match hay with
  | [] => needle.isEmpty
  | _ :: hs => needle.isPrefixOf hay || strIn needle hs

/-- `keyword.lower() in line.lower()` — the case-insensitive containment
test of both scanners (main.py line 26, file_utils.py line 246).  ASCII
lowercasing, which covers the repository's keyword alphabet. -/
def lineMatches (kw : String) (line : List Char) : Bool :=
  strIn (kw.data.map Char.toLower) (line.map Char.toLower)

/-- `f"{file_path}:line {line_num}"` — a MatchLocation string. -/
def mkLoc (path : String) (n : Nat) : String :=
  path ++ ":line " ++ toString n

/-- The lines Python's text-file iteration yields (`for line in file`,
main.py line 24): maximal chunks ending in `'\n'`, newline kept, plus a
final unterminated chunk if any. -/
def pyLines : List Char → List (List Char)
  | [] => []
  | c :: rest =>
    if c = '\n' then ['\n'] :: pyLines rest
    else
      match pyLines rest with
      | [] => [[c]]
      | l :: ls => (c :: l) :: ls

/-- A character `str.splitlines` treats as a line boundary (the content is
the post-translation text stream, so `'\r\n'` pairs do not occur). -/
def isLB (c : Char) : Bool :=
  c = '\n' || c = '\r' || c = '\x0b' || c = '\x0c' || c = '\x1c' ||
  c = '\x1d' || c = '\x1e' || c = '\x85' || c = '\u2028' || c = '\u2029'

/-- `buffer.splitlines(keepends=True)` (file_utils.py line 242). -/
def pySplitlines : List Char → List (List Char)
  | [] => []
  | c :: rest =>
    if isLB c then [c] :: pySplitlines rest
    else
      match pySplitlines rest with
      | [] => [[c]]
      | l :: ls => (c :: l) :: ls

/-- The successive `file.read(buffer_size)` chunks of the content
(file_utils.py lines 238-241); `read(0)` returns `''` so the loop breaks at
once when the size is zero. -/
def pyChunks : Nat → List Char → List (List Char)
  | _, [] => []
  | 0, _ :: _ => []
  | b + 1, c :: rest => ((c :: rest).take (b + 1)) :: pyChunks (b + 1) (rest.drop b)
termination_by _ s => s.length
decreasing_by simp [List.length_drop]; omega

/-- `buffer_size = 1024 * 1024` (file_utils.py line 233). -/
def bufferSize : Nat := 1024 * 1024

/-- The keyword loop of one line: `for keyword in keywords: if
keyword.lower() in line.lower(): results[keyword].append(...)`. -/
def scanLineGo (path : String) (n : Nat) (line : List Char) :
    List String → Dict → Dict
  | [], d => d
  | kw :: rest, d =>
    scanLineGo path n line rest
      (if lineMatches kw line then dSet d kw (dGetD d kw ++ [mkLoc path n])
       else d)

/-- The line loop: lines are numbered from `n` upward (both scanners number
from 1). -/
def scanLinesGo (path : String) (kws : List String) :
    Nat → List (List Char) → Dict → Dict
  | _, [], d => d
  | n, line :: rest, d =>
    scanLinesGo path kws (n + 1) rest (scanLineGo path n line kws d)

/-- `search_keywords_in_file` of main.py (lines 10-31): line-by-line file
iteration; any failure to open/read is caught, leaving the initial dict. -/
def search_keywords_in_file_main (fs : String → Option (List Char))
    (path : String) (kws : List String) : Dict :=
  match fs path with
  | none => dropEmpty (dInit kws)
  | some content => dropEmpty (scanLinesGo path kws 1 (pyLines content) (dInit kws))

/-- `search_keywords_in_file` of file_utils.py (lines 221-253): reads 1MB
chunks, re-splits each chunk with `splitlines(keepends=True)`, and numbers
the resulting pieces consecutively; open/read failures are caught. -/
def search_keywords_in_file_utils (fs : String → Option (List Char))
    (path : String) (kws : List String) : Dict :=
  match fs path with
  | none => dropEmpty (dInit kws)
  | some content =>
    dropEmpty (scanLinesGo path kws 1
      (((pyChunks bufferSize content).map pySplitlines).flatten) (dInit kws))

/-- `items[start::step]` for `step ≥ 1`: every `step`-th element. -/
def pyStride (n : Nat) : List α → List α
  | [] => []
  | x :: xs => x :: pyStride n (xs.drop (n - 1))
termination_by l => l.length
decreasing_by simp [List.length_drop]; omega

/-- `[file_paths[i::num_workers] for i in range(num_workers)]` — the static
round-robin work split (main.py lines 172 and 206). -/
def pySplitAmong (l : List α) (n : Nat) : List (List α) :=
  (List.range n).map (fun i => pyStride n (l.drop i))

/-- The same comprehension with a Python `int` worker count: `range(n)` is
empty for `n ≤ 0`, so no shard is produced. -/
def pySplitAmongZ (l : List α) (n : Int) : List (List α) :=
  if n ≤ 0 then [] else pySplitAmong l n.toNat

/-- One worker's local accumulation over its shard (main.py lines 124-130
and 148-154): scan each file, fold the per-file dict into the local dict. -/
def workerLocalGo (scan : String → Dict) : Dict → List String → Dict
  | acc, [] => acc
  | acc, f :: rest => workerLocalGo scan (dExtendGo acc (scan f)) rest

/-- A worker's local result dict for its shard. -/
def workerLocal (scan : String → Dict) (files : List String) : Dict :=
  workerLocalGo scan [] files

/-- Folding complete per-worker dicts into the final dict, in the order the
workers reached the lock (thread path) or the order their messages were
drained (process path). -/
def foldResultsGo : Dict → List Dict → Dict
  | acc, [] => acc
  | acc, d :: rest => foldResultsGo (dExtendGo acc d) rest

/-- The final dict produced from per-worker dicts in completion order. -/
def foldResults (ds : List Dict) : Dict := foldResultsGo [] ds

/-- The FinalResult of either parallel search path, given the shards in the
order the workers completed: each worker computes `workerLocal` over its
shard and the coordinator/lock folds the local dicts one by one. -/
def parallelFinal (scan : String → Dict) (order : List (List String)) : Dict :=
  foldResults (order.map (workerLocal scan))

/-- `main.py:parallel_file_search_threading` (lines 158-190): the shared
`result_dict` after all workers folded their local dicts under the lock, the
folds occurring in completion order `order` (a permutation of the shard
list, constrained in the theorems). -/
def parallel_file_search_threading (fs : String → Option (List Char))
    (kws : List String) (order : List (List String)) : Dict :=
  parallelFinal (fun f => search_keywords_in_file_main fs f kws) order

/-- `main.py:parallel_file_search_multiprocessing` (lines 192-232): the
coordinator's `results` after draining one queue message per worker, the
messages arriving in completion order `order`. -/
def parallel_file_search_multiprocessing (fs : String → Option (List Char))
    (kws : List String) (order : List (List String)) : Dict :=
  parallelFinal (fun f => search_keywords_in_file_main fs f kws) order

/-- The number of workers started by either pool: `for thread_files in
files_per_thread: thread.start()` (main.py lines 178-184) and `for
process_files in files_per_process: process.start()` (lines 211-217) start
one worker per shard, with no emptiness check. -/
def workersLaunched (files : List String) (n : Nat) : Nat :=
  (pySplitAmong files n).length

/-- The number of parameters of `file_utils.search_keywords_in_file`
(file_utils.py lines 221-223: `def search_keywords_in_file(file_path,
keywords)`), used to model Python's call-arity check. -/
def fileUtilsSearchParamCount : Nat := 2

/-- Calling `file_utils.search_keywords_in_file` with `argCount` arguments:
Python raises `TypeError` when the arity does not match the two declared
parameters, and only otherwise runs the function body. -/
def callFileUtilsSearch (fs : String → Option (List Char)) (argCount : Nat)
    (path : String) (kws : List String) : Except String Dict :=
  if argCount = fileUtilsSearchParamCount then
    Except.ok (search_keywords_in_file_utils fs path kws)
  else
    Except.error "TypeError: search_keywords_in_file() takes 2 positional arguments but 3 were given"

/-- The per-file loop of `thread_search.py:thread_search` (lines 25-33) and
`process_search.py:process_search` (lines 19-42): each iteration calls
`search_keywords_in_file(file, keywords, logger)` — three arguments — inside
`try`, folds the result into the local dict on success, and on any exception
logs and continues with the next file. -/
def workerLocalV2Go (fs : String → Option (List Char)) (kws : List String) :
    Dict → List String → Dict
  | acc, [] => acc
  | acc, f :: rest =>
    workerLocalV2Go fs kws
      (match callFileUtilsSearch fs 3 f kws with
       | Except.ok d => dExtendGo acc d
       | Except.error _ => acc) rest

/-- `thread_search.py:thread_search`: the local dict a worker accumulates
over its files (before folding it into the shared dict under the lock). -/
def thread_search_v2 (fs : String → Option (List Char)) (kws : List String)
    (files : List String) : Dict :=
  workerLocalV2Go fs kws [] files

/-- `process_search.py:process_search`: the local dict a worker puts on the
result queue. -/
def process_search_v2 (fs : String → Option (List Char)) (kws : List String)
    (files : List String) : Dict :=
  workerLocalV2Go fs kws [] files

/-- `thread_search.py:parallel_file_search_threading`: final dict from the
per-worker local dicts in lock-acquisition order. -/
def parallel_file_search_threading_v2 (fs : String → Option (List Char))
    (kws : List String) (order : List (List String)) : Dict :=
  foldResults (order.map (thread_search_v2 fs kws))

/-- `process_search.py:parallel_file_search_multiprocessing`: final dict
from the per-worker messages in drain order. -/
def parallel_file_search_multiprocessing_v2 (fs : String → Option (List Char))
    (kws : List String) (order : List (List String)) : Dict :=
  foldResults (order.map (process_search_v2 fs kws))

/-- The match locations the specification predicts for one keyword in one
file: one `"<path>:line <N>"` per line (numbered from `n`) whose lowercased
text contains the lowercased keyword. -/
def matchLocs (path : String) (kw : String) : Nat → List (List Char) → List String
  | _, [] => []
  | n, line :: rest =>
    (if lineMatches kw line then [mkLoc path n] else []) ++ matchLocs path kw (n + 1) rest

/-- The concatenation of all locations a dict associates with `k`, over all
entries with that key (coincides with `dGetD` on duplicate-free dicts). -/
def locsAt (d : Dict) (k : String) : List String :=
  (d.filterMap (fun p => if p.1 = k then some p.2 else none)).flatten

/-- A two-file test file system ("a" holds a `Python` match on line 1, "b"
holds one on line 2), used to instantiate theorems on concrete inputs. -/
def fsW : String → Option (List Char) := fun p =>
  if p = "a" then some "Python here\n".data
  else if p = "b" then some "no match\npython\n".data else none

/-- A three-line test file whose only `key` occurrence is on line 2. -/
def fs3 : String → Option (List Char) := fun p =>
  if p = "f" then some "alpha\nkey beta\ngamma\n".data else none

/-- A one-file test file system containing capitalised `Python`. -/
def fsP : String → Option (List Char) := fun p =>
  if p = "f" then some "Python is fun\n".data else none

/-- File content whose first line contains a vertical-tab character
(`'\x0b'`): one `'\n'`-delimited line before the final newline, but two
`splitlines` pieces. -/
def contentC6 : List Char := "a\x0bpython\n".data

/-- A file system holding `contentC6` at path "f". -/
def fsC6 : String → Option (List Char) := fun p =>
  if p = "f" then some contentC6 else none

theorem dGet?_dSet_self (d : Dict) (k : String) (v : List String) :
    dGet? (dSet d k v) k = some v := by
  induction d with
  | nil => simp [dSet, dGet?]
  | cons p rest ih =>
    by_cases h : p.1 = k
    · simp [dSet, h, dGet?]
    · simp [dSet, h, dGet?, ih]

theorem dGet?_dSet_ne (d : Dict) {k k' : String} (v : List String)
    (h : k' ≠ k) : dGet? (dSet d k v) k' = dGet? d k' := by
  induction d with
  | nil => simp [dSet, dGet?, Ne.symm h]
  | cons p rest ih =>
    obtain ⟨a, b⟩ := p
    by_cases hp : a = k
    · subst hp
      simp [dSet, dGet?, Ne.symm h]
    · simp only [dSet, hp, if_false]
      by_cases hk : a = k'
      · simp [dGet?, hk]
      · simp [dGet?, hk, ih]

theorem dGetD_dSet_self (d : Dict) (k : String) (v : List String) :
    dGetD (dSet d k v) k = v := by
  simp [dGetD, dGet?_dSet_self]

theorem dGetD_dSet_ne (d : Dict) {k k' : String} (v : List String)
    (h : k' ≠ k) : dGetD (dSet d k v) k' = dGetD d k' := by
  simp [dGetD, dGet?_dSet_ne d v h]

theorem locsAt_nil (k : String) : locsAt [] k = [] := rfl

theorem locsAt_cons (p : String × List String) (rest : Dict) (k : String) :
    locsAt (p :: rest) k =
      (if p.1 = k then p.2 else []) ++ locsAt rest k := by
  by_cases h : p.1 = k <;> simp [locsAt, List.filterMap_cons, h]

theorem dGetD_dExtendGo (d : Dict) :
    ∀ acc k, dGetD (dExtendGo acc d) k = dGetD acc k ++ locsAt d k := by
  induction d with
  | nil => intro acc k; simp [dExtendGo, locsAt_nil]
  | cons p rest ih =>
    intro acc k
    obtain ⟨k', v⟩ := p
    rw [dExtendGo, ih, locsAt_cons]
    by_cases h : k' = k
    · subst h
      rw [dGetD_dSet_self]
      simp [List.append_assoc]
    · rw [dGetD_dSet_ne _ _ (fun hh => h hh.symm)]
      simp [h]

theorem dGet?_eq_none_iff (d : Dict) (k : String) :
    dGet? d k = none ↔ ∀ p ∈ d, p.1 ≠ k := by
  induction d with
  | nil => simp [dGet?]
  | cons p rest ih =>
    by_cases h : p.1 = k
    · simp [dGet?, h]
    · simp [dGet?, h, ih]

theorem locsAt_eq_nil_of_none {d : Dict} {k : String}
    (h : dGet? d k = none) : locsAt d k = [] := by
  induction d with
  | nil => rfl
  | cons p rest ih =>
    rw [dGet?_eq_none_iff] at h
    rw [locsAt_cons, if_neg (h p (by simp)), List.nil_append]
    exact ih ((dGet?_eq_none_iff rest k).2 (fun q hq => h q (by simp [hq])))

theorem locsAt_eq_dGetD {d : Dict} (hd : nodupKeys d) (k : String) :
    locsAt d k = dGetD d k := by
  induction d with
  | nil => rfl
  | cons p rest ih =>
    have hrest : nodupKeys rest := (List.nodup_cons.1 hd).2
    have hnotin : p.1 ∉ dKeys rest := (List.nodup_cons.1 hd).1
    rw [locsAt_cons]
    by_cases h : p.1 = k
    · subst h
      have hnone : dGet? rest p.1 = none := by
        rw [dGet?_eq_none_iff]
        intro q hq hqk
        exact hnotin (hqk ▸ List.mem_map_of_mem Prod.fst hq)
      rw [locsAt_eq_nil_of_none hnone]
      simp [dGetD, dGet?]
    · rw [if_neg h, List.nil_append, ih hrest]
      simp [dGetD, dGet?, h]

theorem dKeys_dSet (d : Dict) (k : String) (v : List String) :
    dKeys (dSet d k v) = if k ∈ dKeys d then dKeys d else dKeys d ++ [k] := by
  induction d with
  | nil => simp [dSet, dKeys]
  | cons p rest ih =>
    obtain ⟨a, b⟩ := p
    by_cases h : a = k
    · subst h
      simp [dSet, dKeys]
    · have hstep : dSet ((a, b) :: rest) k v = (a, b) :: dSet rest k v := by
        simp [dSet, h]
      have hmem : (k ∈ dKeys ((a, b) :: rest)) ↔ k ∈ dKeys rest := by
        simp [dKeys, Ne.symm h]
      by_cases hk : k ∈ dKeys rest
      · rw [hstep, if_pos (hmem.2 hk)]
        show a :: dKeys (dSet rest k v) = a :: dKeys rest
        rw [ih, if_pos hk]
      · rw [hstep, if_neg (fun hc => hk (hmem.1 hc))]
        show a :: dKeys (dSet rest k v) = a :: (dKeys rest ++ [k])
        rw [ih, if_neg hk]

theorem nodupKeys_dSet {d : Dict} (hd : nodupKeys d) (k : String)
    (v : List String) : nodupKeys (dSet d k v) := by
  unfold nodupKeys
  rw [dKeys_dSet]
  by_cases h : k ∈ dKeys d
  · simpa [h] using hd
  · simp only [h, if_false]
    exact hd.append (List.nodup_singleton k)
      (fun a ha hak => h ((List.mem_singleton.1 hak) ▸ ha))

theorem nodupKeys_dExtendGo (d : Dict) :
    ∀ {acc : Dict}, nodupKeys acc → nodupKeys (dExtendGo acc d) := by
  induction d with
  | nil => intro acc h; exact h
  | cons p rest ih =>
    intro acc h
    exact ih (nodupKeys_dSet h p.1 (dGetD acc p.1 ++ p.2))

theorem nodupKeys_nil : nodupKeys [] := List.nodup_nil

theorem dGetD_foldResultsGo (ds : List Dict) :
    ∀ acc k, dGetD (foldResultsGo acc ds) k =
      dGetD acc k ++ (ds.map (fun d => locsAt d k)).flatten := by
  induction ds with
  | nil => intro acc k; simp [foldResultsGo]
  | cons d rest ih =>
    intro acc k
    rw [foldResultsGo, ih, dGetD_dExtendGo]
    simp [List.append_assoc]

theorem dGetD_foldResults (ds : List Dict) (k : String) :
    dGetD (foldResults ds) k = (ds.map (fun d => locsAt d k)).flatten := by
  rw [foldResults, dGetD_foldResultsGo]
  simp [dGetD, dGet?]

theorem nodupKeys_foldResultsGo (ds : List Dict) :
    ∀ {acc : Dict}, nodupKeys acc → nodupKeys (foldResultsGo acc ds) := by
  induction ds with
  | nil => intro acc h; exact h
  | cons d rest ih => intro acc h; exact ih (nodupKeys_dExtendGo d h)

theorem nodupKeys_foldResults (ds : List Dict) : nodupKeys (foldResults ds) :=
  nodupKeys_foldResultsGo ds nodupKeys_nil

theorem dGetD_workerLocalGo (scan : String → Dict) (files : List String) :
    ∀ acc k, dGetD (workerLocalGo scan acc files) k =
      dGetD acc k ++ (files.map (fun f => locsAt (scan f) k)).flatten := by
  induction files with
  | nil => intro acc k; simp [workerLocalGo]
  | cons f rest ih =>
    intro acc k
    rw [workerLocalGo, ih, dGetD_dExtendGo]
    simp [List.append_assoc]

theorem dGetD_workerLocal (scan : String → Dict) (files : List String)
    (k : String) :
    dGetD (workerLocal scan files) k =
      (files.map (fun f => locsAt (scan f) k)).flatten := by
  rw [workerLocal, dGetD_workerLocalGo]
  simp [dGetD, dGet?]

theorem nodupKeys_workerLocal (scan : String → Dict) (files : List String) :
    nodupKeys (workerLocal scan files) := by
  rw [workerLocal]
  have : ∀ acc : Dict, nodupKeys acc → nodupKeys (workerLocalGo scan acc files) := by
    induction files with
    | nil => intro acc h; exact h
    | cons f rest ih => intro acc h; exact ih _ (nodupKeys_dExtendGo (scan f) h)
  exact this [] nodupKeys_nil

theorem locsAt_workerLocal (scan : String → Dict) (files : List String)
    (k : String) :
    locsAt (workerLocal scan files) k =
      (files.map (fun f => locsAt (scan f) k)).flatten := by
  rw [locsAt_eq_dGetD (nodupKeys_workerLocal scan files),
    dGetD_workerLocal]

theorem mem_dSet {p : String × List String} {d : Dict} {k : String}
    {v : List String} (h : p ∈ dSet d k v) : p ∈ d ∨ p = (k, v) := by
  induction d with
  | nil => simp [dSet] at h; simp [h]
  | cons q rest ih =>
    obtain ⟨a, b⟩ := q
    by_cases ha : a = k
    · subst ha
      simp [dSet] at h
      rcases h with h | h
      · right; simp [h]
      · left; simp [h]
    · simp [dSet, ha] at h
      rcases h with h | h
      · left; simp [h]
      · rcases ih h with h' | h'
        · left; simp [h']
        · right; exact h'

theorem dExtendGo_vals_ne_nil (d : Dict) :
    ∀ acc, (∀ p ∈ acc, p.2 ≠ []) → (∀ p ∈ d, p.2 ≠ []) →
      ∀ p ∈ dExtendGo acc d, p.2 ≠ [] := by
  induction d with
  | nil => intro acc hacc _ p hp; exact hacc p hp
  | cons q rest ih =>
    intro acc hacc hd p hp
    obtain ⟨a, b⟩ := q
    have hb : b ≠ [] := hd (a, b) (by simp)
    refine ih _ ?_ (fun r hr => hd r (by simp [hr])) p hp
    intro r hr
    rcases mem_dSet hr with h' | h'
    · exact hacc r h'
    · subst h'
      simp only [ne_eq, List.append_eq_nil]
      intro ⟨_, hb'⟩
      exact hb hb'

theorem dGet?_dExtendGo_none (d : Dict) :
    ∀ acc k, dGet? acc k = none → (∀ p ∈ d, p.1 ≠ k) →
      dGet? (dExtendGo acc d) k = none := by
  induction d with
  | nil => intro acc k h _; exact h
  | cons q rest ih =>
    intro acc k h hd
    refine ih _ k ?_ (fun r hr => hd r (by simp [hr]))
    rw [dGet?_dSet_ne _ _ (Ne.symm (hd q (by simp)))]
    exact h

theorem pyStride_nil (n : Nat) : pyStride n ([] : List α) = [] := by
  rw [pyStride]

theorem pyStride_one (l : List α) : pyStride 1 l = l := by
  induction l with
  | nil => exact pyStride_nil 1
  | cons x xs ih => rw [pyStride]; simpa using ih

theorem pyStride_getElem? (m : Nat) :
    ∀ (j : Nat) (l : List α), (pyStride (m + 1) l)[j]? = l[j * (m + 1)]? := by
  intro j
  induction j with
  | zero =>
    intro l
    cases l with
    | nil => simp [pyStride_nil]
    | cons x xs => rw [pyStride]; simp
  | succ j ih =>
    intro l
    cases l with
    | nil => simp [pyStride_nil]
    | cons x xs =>
      rw [pyStride]
      have h1 : (x :: pyStride (m + 1) (xs.drop (m + 1 - 1)))[j + 1]? =
          (pyStride (m + 1) (xs.drop m))[j]? := by simp
      rw [h1, ih]
      rw [List.getElem?_drop]
      have h2 : (x :: xs)[(j + 1) * (m + 1)]? = xs[(j + 1) * (m + 1) - 1]? := by
        have : (j + 1) * (m + 1) = (j * (m + 1) + m) + 1 := by ring
        rw [this]
        simp
      rw [h2]
      congr 1
      ring_nf
      omega

theorem pySplitAmong_getElem? (l : List α) (n : Nat) {k : Nat} (hk : k < n) :
    (pySplitAmong l n)[k]? = some (pyStride n (l.drop k)) := by
  rw [pySplitAmong]
  rw [List.getElem?_map, List.getElem?_range hk]
  rfl

theorem pySplitAmong_flatten_perm (m : Nat) (l : List α) :
    List.Perm (pySplitAmong l (m + 1)).flatten l := by
  induction l with
  | nil =>
    have h : pySplitAmong ([] : List α) (m + 1) =
        (List.range (m + 1)).map (fun _ => []) := by
      rw [pySplitAmong]
      exact List.map_congr_left (fun i _ => by simp [pyStride_nil])
    rw [h]
    simp [List.flatten_eq_nil_iff]
  | cons x xs ih =>
    have hhead : pyStride (m + 1) (x :: xs) =
        x :: pyStride (m + 1) (xs.drop m) := by
      rw [pyStride]; simp
    have hsplit : pySplitAmong (x :: xs) (m + 1) =
        (x :: pyStride (m + 1) (xs.drop m)) ::
          (List.range m).map (fun i => pyStride (m + 1) (xs.drop i)) := by
      rw [pySplitAmong, List.range_succ_eq_map, List.map_cons, List.map_map]
      simp only [List.drop_zero, Function.comp_def]
      rw [hhead]
      congr 1
    have hxs : pySplitAmong xs (m + 1) =
        (List.range m).map (fun i => pyStride (m + 1) (xs.drop i)) ++
          [pyStride (m + 1) (xs.drop m)] := by
      rw [pySplitAmong, List.range_succ, List.map_append]
      rfl
    rw [hsplit]
    rw [List.flatten_cons]
    refine List.Perm.trans ?_ (List.Perm.cons x (hxs ▸ ih))
    simp only [List.cons_append, List.flatten_append, List.flatten_cons,
      List.flatten_nil, List.append_nil]
    exact List.Perm.cons x List.perm_append_comm

theorem pySplitAmong_flatten_perm_of_pos {n : Nat} (hn : 1 ≤ n) (l : List α) :
    List.Perm (pySplitAmong l n).flatten l := by
  obtain ⟨m, rfl⟩ : ∃ m, n = m + 1 := ⟨n - 1, by omega⟩
  exact pySplitAmong_flatten_perm m l

theorem flatten_map_flatten (h : α → List β) :
    ∀ shards : List (List α),
      (shards.map (fun s => (s.map h).flatten)).flatten =
        ((shards.flatten).map h).flatten := by
  intro shards
  induction shards with
  | nil => rfl
  | cons s rest ih =>
    simp only [List.map_cons, List.flatten_cons, List.map_append,
      List.flatten_append, ih]

/-- Core fan-in lemma: folding the per-shard local dicts in any completion
order gives, for every keyword, the same multiset of locations as one
sequential worker scanning the whole file list. -/
theorem parallelFinal_perm_seq (scan : String → Dict) (files : List String)
    {n : Nat} (hn : 1 ≤ n) {order : List (List String)}
    (horder : List.Perm order (pySplitAmong files n)) (k : String) :
    List.Perm (dGetD (parallelFinal scan order) k)
      (dGetD (workerLocal scan files) k) := by
  rw [parallelFinal, dGetD_foldResults, List.map_map, dGetD_workerLocal]
  have hperm1 :
      List.Perm (order.map (fun s => locsAt (workerLocal scan s) k)).flatten
        ((pySplitAmong files n).map
          (fun s => locsAt (workerLocal scan s) k)).flatten :=
    (horder.map _).flatten
  refine hperm1.trans ?_
  have heq : (pySplitAmong files n).map (fun s => locsAt (workerLocal scan s) k) =
      (pySplitAmong files n).map (fun s => (s.map (fun f => locsAt (scan f) k)).flatten) :=
    List.map_congr_left (fun s _ => locsAt_workerLocal scan s k)
  rw [heq, flatten_map_flatten]
  exact (((pySplitAmong_flatten_perm_of_pos hn files).map _).flatten)

theorem dInitGo_vals_nil (kws : List String) :
    ∀ acc : Dict, (∀ p ∈ acc, p.2 = []) →
      ∀ p ∈ dInitGo acc kws, p.2 = ([] : List String) := by
  induction kws with
  | nil => intro acc h p hp; exact h p hp
  | cons kw rest ih =>
    intro acc h p hp
    refine ih _ ?_ p hp
    intro q hq
    rcases mem_dSet hq with h' | h'
    · exact h q h'
    · simp [h']

theorem dGet?_mem {d : Dict} {k : String} {v : List String}
    (h : dGet? d k = some v) : (k, v) ∈ d := by
  induction d with
  | nil => simp [dGet?] at h
  | cons q rest ih =>
    obtain ⟨a, b⟩ := q
    by_cases ha : a = k
    · subst ha
      simp [dGet?] at h
      simp [h]
    · simp [dGet?, ha] at h
      simp [ih h]

theorem dGetD_dInit (kws : List String) (k : String) :
    dGetD (dInit kws) k = [] := by
  rw [dGetD]
  cases hg : dGet? (dInit kws) k with
  | none => rfl
  | some v =>
    have h : (k, v).2 = ([] : List String) :=
      dInitGo_vals_nil kws [] (by simp) (k, v) (dGet?_mem hg)
    exact h

theorem nodupKeys_dInit (kws : List String) : nodupKeys (dInit kws) := by
  rw [dInit]
  have h : ∀ acc : Dict, nodupKeys acc → nodupKeys (dInitGo acc kws) := by
    induction kws with
    | nil => intro acc h; exact h
    | cons kw rest ih => intro acc h; exact ih _ (nodupKeys_dSet h kw [])
  exact h [] nodupKeys_nil

theorem dGetD_scanLineGo_count_zero (path : String) (n : Nat) (line : List Char)
    {kw : String} (kws : List String) (hc : kws.count kw = 0) :
    ∀ d, dGetD (scanLineGo path n line kws d) kw = dGetD d kw := by
  induction kws with
  | nil => intro d; rfl
  | cons k' rest ih =>
    intro d
    have hk' : k' ≠ kw := by
      intro h
      subst h
      simp [List.count_cons] at hc
    have hrest : rest.count kw = 0 := by
      simp [List.count_cons] at hc
      exact hc.1
    rw [scanLineGo, ih hrest]
    by_cases hm : lineMatches k' line
    · rw [if_pos hm, dGetD_dSet_ne _ _ (Ne.symm hk')]
    · rw [if_neg hm]

theorem dGetD_scanLineGo_count_one (path : String) (n : Nat) (line : List Char)
    {kw : String} (kws : List String) (hc : kws.count kw = 1) :
    ∀ d, dGetD (scanLineGo path n line kws d) kw =
      dGetD d kw ++ (if lineMatches kw line then [mkLoc path n] else []) := by
  induction kws with
  | nil => intro d; simp [List.count_nil] at hc
  | cons k' rest ih =>
    intro d
    by_cases hk' : k' = kw
    · subst hk'
      have hrest : rest.count k' = 0 := by
        simp [List.count_cons] at hc
        exact hc
      rw [scanLineGo, dGetD_scanLineGo_count_zero path n line rest hrest]
      by_cases hm : lineMatches k' line
      · rw [if_pos hm, if_pos hm, dGetD_dSet_self]
      · rw [if_neg hm, if_neg hm, List.append_nil]
    · have hrest : rest.count kw = 1 := by
        simpa [List.count_cons, hk'] using hc
      rw [scanLineGo, ih hrest]
      by_cases hm : lineMatches k' line
      · rw [if_pos hm, dGetD_dSet_ne _ _ (Ne.symm hk')]
      · rw [if_neg hm]

theorem dGetD_scanLinesGo (path : String) {kw : String} (kws : List String)
    (hc : kws.count kw = 1) (lines : List (List Char)) :
    ∀ (n : Nat) (d : Dict), dGetD (scanLinesGo path kws n lines d) kw =
      dGetD d kw ++ matchLocs path kw n lines := by
  induction lines with
  | nil => intro n d; simp [scanLinesGo, matchLocs]
  | cons line rest ih =>
    intro n d
    rw [scanLinesGo, ih, dGetD_scanLineGo_count_one path n line kws hc,
      matchLocs, List.append_assoc]

theorem nodupKeys_scanLineGo (path : String) (n : Nat) (line : List Char)
    (kws : List String) :
    ∀ {d : Dict}, nodupKeys d → nodupKeys (scanLineGo path n line kws d) := by
  induction kws with
  | nil => intro d h; exact h
  | cons k' rest ih =>
    intro d h
    rw [scanLineGo]
    by_cases hm : lineMatches k' line
    · rw [if_pos hm]; exact ih (nodupKeys_dSet h _ _)
    · rw [if_neg hm]; exact ih h

theorem nodupKeys_scanLinesGo (path : String) (kws : List String)
    (lines : List (List Char)) :
    ∀ (n : Nat) {d : Dict}, nodupKeys d →
      nodupKeys (scanLinesGo path kws n lines d) := by
  induction lines with
  | nil => intro n d h; exact h
  | cons line rest ih =>
    intro n d h
    exact ih (n + 1) (nodupKeys_scanLineGo path n line kws h)

theorem dKeys_dropEmpty_sublist (d : Dict) :
    List.Sublist (dKeys (dropEmpty d)) (dKeys d) :=
  List.Sublist.map Prod.fst (List.filter_sublist d)

theorem nodupKeys_dropEmpty {d : Dict} (h : nodupKeys d) :
    nodupKeys (dropEmpty d) :=
  List.Nodup.sublist (dKeys_dropEmpty_sublist d) h

theorem dGet?_eq_none_of_not_mem_keys {d : Dict} {k : String}
    (h : k ∉ dKeys d) : dGet? d k = none := by
  rw [dGet?_eq_none_iff]
  intro p hp hpk
  exact h (hpk ▸ List.mem_map_of_mem Prod.fst hp)

theorem dGetD_dropEmpty {d : Dict} (hd : nodupKeys d) (k : String) :
    dGetD (dropEmpty d) k = dGetD d k := by
  induction d with
  | nil => rfl
  | cons p rest ih =>
    obtain ⟨a, b⟩ := p
    have hrest : nodupKeys rest := (List.nodup_cons.1 hd).2
    have hnotin : a ∉ dKeys rest := (List.nodup_cons.1 hd).1
    by_cases hb : b.isEmpty
    · have hb' : b = [] := by simpa [List.isEmpty_iff] using hb
      subst hb'
      have hstep : dropEmpty ((a, ([] : List String)) :: rest) = dropEmpty rest := by
        simp [dropEmpty]
      rw [hstep, ih hrest]
      by_cases hak : a = k
      · subst hak
        have h1 : dGet? rest a = none := dGet?_eq_none_of_not_mem_keys hnotin
        simp [dGetD, dGet?, h1]
      · simp [dGetD, dGet?, hak]
    · have hstep : dropEmpty ((a, b) :: rest) = (a, b) :: dropEmpty rest := by
        simp [dropEmpty, hb]
      rw [hstep]
      by_cases hak : a = k
      · subst hak
        simp [dGetD, dGet?]
      · simp only [dGetD, dGet?, hak, if_false]
        exact ih hrest

/-- Characterization of the main.py scanner on a readable file: for a
keyword listed exactly once, the returned locations are precisely the
spec-predicted per-line match locations. -/
theorem search_main_eq_matchLocs (fs : String → Option (List Char))
    {path : String} {content : List Char} (hf : fs path = some content)
    {kw : String} {kws : List String} (hc : kws.count kw = 1) :
    dGetD (search_keywords_in_file_main fs path kws) kw =
      matchLocs path kw 1 (pyLines content) := by
  rw [search_keywords_in_file_main, hf]
  rw [dGetD_dropEmpty (nodupKeys_scanLinesGo path kws (pyLines content) 1
    (nodupKeys_dInit kws))]
  rw [dGetD_scanLinesGo path kws hc, dGetD_dInit, List.nil_append]

/-- Same characterization for the file_utils.py scanner, against the chunked
and `splitlines`-based line list it actually iterates. -/
theorem search_utils_eq_matchLocs (fs : String → Option (List Char))
    {path : String} {content : List Char} (hf : fs path = some content)
    {kw : String} {kws : List String} (hc : kws.count kw = 1) :
    dGetD (search_keywords_in_file_utils fs path kws) kw =
      matchLocs path kw 1 (((pyChunks bufferSize content).map pySplitlines).flatten) := by
  rw [search_keywords_in_file_utils, hf]
  rw [dGetD_dropEmpty (nodupKeys_scanLinesGo path kws _ 1 (nodupKeys_dInit kws))]
  rw [dGetD_scanLinesGo path kws hc, dGetD_dInit, List.nil_append]

theorem mem_matchLocs (path : String) (kw : String) (loc : String) :
    ∀ (lines : List (List Char)) (n : Nat),
      (loc ∈ matchLocs path kw n lines ↔
        ∃ i line, lines[i]? = some line ∧ lineMatches kw line = true ∧
          loc = mkLoc path (n + i)) := by
  intro lines
  induction lines with
  | nil => intro n; simp [matchLocs]
  | cons line rest ih =>
    intro n
    rw [matchLocs, List.mem_append]
    constructor
    · intro h
      rcases h with h | h
      · by_cases hm : lineMatches kw line
        · rw [if_pos hm, List.mem_singleton] at h
          exact ⟨0, line, by simp, hm, by simpa using h⟩
        · rw [if_neg hm] at h
          simp at h
      · obtain ⟨i, l, hl, hm, hloc⟩ := (ih (n + 1)).1 h
        exact ⟨i + 1, l, by simpa using hl, hm,
          by rw [hloc]; congr 1; omega⟩
    · rintro ⟨i, l, hl, hm, hloc⟩
      cases i with
      | zero =>
        left
        simp only [List.getElem?_cons_zero, Option.some_inj] at hl
        subst hl
        rw [if_pos hm]
        simp [hloc]
      | succ i =>
        right
        refine (ih (n + 1)).2 ⟨i, l, by simpa using hl, hm, ?_⟩
        rw [hloc]
        congr 1
        omega

theorem strIn_iff (needle : List Char) :
    ∀ hay : List Char, strIn needle hay = true ↔ needle <:+: hay := by
  intro hay
  induction hay with
  | nil =>
    rw [strIn]
    constructor
    · intro h
      have : needle = [] := by simpa [List.isEmpty_iff] using h
      simp [this]
    · intro h
      have : needle = [] := List.eq_nil_of_infix_nil h
      simp [this, List.isEmpty_iff]
  | cons c rest ih =>
    rw [strIn]
    rw [Bool.or_eq_true, List.isPrefixOf_iff_prefix, ih]
    rw [List.infix_cons_iff]

/-- On content whose only line-break characters are `'\n'`,
`splitlines(keepends=True)` agrees with Python's line iteration. -/
theorem pySplitlines_eq_pyLines :
    ∀ {s : List Char}, (∀ c ∈ s, isLB c = true → c = '\n') →
      pySplitlines s = pyLines s := by
  intro s
  induction s with
  | nil => intro _; rfl
  | cons c rest ih =>
    intro h
    have hrest : ∀ c' ∈ rest, isLB c' = true → c' = '\n' :=
      fun c' hc' => h c' (by simp [hc'])
    rw [pySplitlines, pyLines]
    by_cases hlb : isLB c = true
    · have hc : c = '\n' := h c (by simp) hlb
      rw [if_pos hlb, if_pos hc, ih hrest, hc]
    · have hc : ¬(c = '\n') := by
        intro hcn
        exact hlb (by rw [hcn]; rfl)
      rw [if_neg hlb, if_neg hc, ih hrest]

theorem pyChunks_single {b : Nat} (hb : 1 ≤ b) :
    ∀ {s : List Char}, s.length ≤ b →
      pyChunks b s = if s = [] then [] else [s] := by
  intro s hs
  obtain ⟨b', rfl⟩ : ∃ b'', b = b'' + 1 := ⟨b - 1, by omega⟩
  cases s with
  | nil => rw [pyChunks]; rfl
  | cons c rest =>
    rw [pyChunks]
    have h1 : (c :: rest).take (b' + 1) = c :: rest :=
      List.take_of_length_le hs
    have h2 : rest.drop b' = [] :=
      List.drop_eq_nil_of_le (by simpa using hs)
    rw [h1, h2, pyChunks]
    simp

/-- When the whole content fits in one 1MB read and all its line breaks are
`'\n'`, the chunked file_utils scanner returns exactly what the main.py
line-iterating scanner returns. -/
theorem search_utils_eq_search_main (fs : String → Option (List Char))
    (path : String) (kws : List String) {content : List Char}
    (hf : fs path = some content) (hlen : content.length ≤ bufferSize)
    (hnl : ∀ c ∈ content, isLB c = true → c = '\n') :
    search_keywords_in_file_utils fs path kws =
      search_keywords_in_file_main fs path kws := by
  rw [search_keywords_in_file_utils, search_keywords_in_file_main, hf]
  show dropEmpty (scanLinesGo path kws 1
      (((pyChunks bufferSize content).map pySplitlines).flatten) (dInit kws)) =
    dropEmpty (scanLinesGo path kws 1 (pyLines content) (dInit kws))
  have hb : 1 ≤ bufferSize := by rw [bufferSize]; omega
  rw [pyChunks_single hb hlen]
  by_cases hC : content = []
  · subst hC
    simp [pyLines]
  · rw [if_neg hC]
    rw [List.map_cons, List.map_nil, List.flatten_cons, List.flatten_nil,
      List.append_nil, pySplitlines_eq_pyLines hnl]

theorem dropEmpty_dInit (kws : List String) : dropEmpty (dInit kws) = [] := by
  rw [dropEmpty, List.filter_eq_nil_iff]
  intro p hp
  have h : p.2 = [] := dInitGo_vals_nil kws [] (by simp) p hp
  simp [h]

theorem search_main_of_unreadable (fs : String → Option (List Char))
    {path : String} (kws : List String) (h : fs path = none) :
    search_keywords_in_file_main fs path kws = [] := by
  rw [search_keywords_in_file_main, h]
  exact dropEmpty_dInit kws

theorem search_utils_of_unreadable (fs : String → Option (List Char))
    {path : String} (kws : List String) (h : fs path = none) :
    search_keywords_in_file_utils fs path kws = [] := by
  rw [search_keywords_in_file_utils, h]
  exact dropEmpty_dInit kws

theorem mem_dropEmpty_vals {d : Dict} {p : String × List String}
    (hp : p ∈ dropEmpty d) : p.2 ≠ [] := by
  rw [dropEmpty] at hp
  have h := (List.mem_filter.1 hp).2
  simpa using h

theorem dExtendGo_nil_right (acc : Dict) : dExtendGo acc [] = acc := rfl

theorem workerLocalGo_skip_unreadable (scan : String → Dict) {bad : String}
    (hbad : scan bad = []) (l1 l2 : List String) :
    ∀ acc, workerLocalGo scan acc (l1 ++ bad :: l2) =
      workerLocalGo scan acc (l1 ++ l2) := by
  induction l1 with
  | nil =>
    intro acc
    simp only [List.nil_append]
    rw [workerLocalGo, hbad, dExtendGo_nil_right]
  | cons f rest ih =>
    intro acc
    simp only [List.cons_append]
    rw [workerLocalGo, workerLocalGo, ih]

theorem workerLocal_skip_unreadable (scan : String → Dict) {bad : String}
    (hbad : scan bad = []) (l1 l2 : List String) :
    workerLocal scan (l1 ++ bad :: l2) = workerLocal scan (l1 ++ l2) :=
  workerLocalGo_skip_unreadable scan hbad l1 l2 []

theorem workerLocalGo_vals_ne_nil (scan : String → Dict)
    (hscan : ∀ f, ∀ p ∈ scan f, p.2 ≠ []) (files : List String) :
    ∀ acc, (∀ p ∈ acc, p.2 ≠ []) →
      ∀ p ∈ workerLocalGo scan acc files, p.2 ≠ [] := by
  induction files with
  | nil => intro acc hacc p hp; exact hacc p hp
  | cons f rest ih =>
    intro acc hacc p hp
    exact ih _ (dExtendGo_vals_ne_nil (scan f) acc hacc (hscan f)) p hp

theorem foldResultsGo_vals_ne_nil (ds : List Dict)
    (hds : ∀ d ∈ ds, ∀ p ∈ d, p.2 ≠ []) :
    ∀ acc, (∀ p ∈ acc, p.2 ≠ []) →
      ∀ p ∈ foldResultsGo acc ds, p.2 ≠ [] := by
  induction ds with
  | nil => intro acc hacc p hp; exact hacc p hp
  | cons d rest ih =>
    intro acc hacc p hp
    refine ih (fun d' hd' => hds d' (by simp [hd'])) _
      (dExtendGo_vals_ne_nil d acc hacc (hds d (by simp))) p hp

theorem dGet?_workerLocalGo_none (scan : String → Dict) {k : String}
    (files : List String) :
    ∀ acc, dGet? acc k = none → (∀ f ∈ files, dGet? (scan f) k = none) →
      dGet? (workerLocalGo scan acc files) k = none := by
  induction files with
  | nil => intro acc hacc _; exact hacc
  | cons f rest ih =>
    intro acc hacc hfiles
    refine ih _ ?_ (fun f' hf' => hfiles f' (by simp [hf']))
    refine dGet?_dExtendGo_none (scan f) acc k hacc ?_
    exact (dGet?_eq_none_iff (scan f) k).1 (hfiles f (by simp))

theorem dGet?_foldResultsGo_none (ds : List Dict) {k : String} :
    ∀ acc, dGet? acc k = none → (∀ d ∈ ds, dGet? d k = none) →
      dGet? (foldResultsGo acc ds) k = none := by
  induction ds with
  | nil => intro acc hacc _; exact hacc
  | cons d rest ih =>
    intro acc hacc hds
    refine ih _ ?_ (fun d' hd' => hds d' (by simp [hd']))
    exact dGet?_dExtendGo_none d acc k hacc
      ((dGet?_eq_none_iff d k).1 (hds d (by simp)))

/-- C1: for every file system, file list and keyword list, any worker count
`n ≥ 1` and any completion order of the shards (thread path: the order the
lock is acquired; process path: the order the queue messages are drained),
the per-keyword MatchLocation list in the FinalResult of either parallel
search is a permutation of — equal as a multiset to — the locations obtained
by scanning every file sequentially and concatenating per-keyword
locations. -/
theorem C1_final_multiset_eq_sequential (fs : String → Option (List Char))
    (kws : List String) (files : List String) (n : Nat) (hn : 1 ≤ n)
    (order : List (List String))
    (horder : List.Perm order (pySplitAmong files n)) (kw : String) :
    List.Perm (dGetD (parallel_file_search_threading fs kws order) kw)
      (dGetD (workerLocal (fun f => search_keywords_in_file_main fs f kws) files) kw) ∧
    List.Perm (dGetD (parallel_file_search_multiprocessing fs kws order) kw)
      (dGetD (workerLocal (fun f => search_keywords_in_file_main fs f kws) files) kw) :=
  ⟨parallelFinal_perm_seq _ files hn horder kw,
   parallelFinal_perm_seq _ files hn horder kw⟩

/-- Witness for C1 at a concrete input: two files split over two workers
that complete in reversed order. -/
theorem C1_witness :
    List.Perm
      (dGetD (parallel_file_search_threading fsW ["python"] [["b"], ["a"]]) "python")
      (dGetD (workerLocal (fun f => search_keywords_in_file_main fsW f ["python"])
        ["a", "b"]) "python") := by
  have hsplit : pySplitAmong ["a", "b"] 2 = [["a"], ["b"]] := by
    simp [pySplitAmong, pyStride, List.range_succ]
  exact (C1_final_multiset_eq_sequential fsW ["python"] ["a", "b"] 2 (by omega)
    [["b"], ["a"]] (by rw [hsplit]; exact List.Perm.swap _ _ _) "python").1

/-- C2: for every file system, file list and keyword list, the threading
FinalResult and the multiprocessing FinalResult hold, for each keyword, the
same multiset of MatchLocations, whatever (positive) worker counts and
completion orders the two runs had. -/
theorem C2_thread_process_equiv (fs : String → Option (List Char))
    (kws : List String) (files : List String) (n₁ n₂ : Nat)
    (h1 : 1 ≤ n₁) (h2 : 1 ≤ n₂) (o₁ o₂ : List (List String))
    (ho₁ : List.Perm o₁ (pySplitAmong files n₁))
    (ho₂ : List.Perm o₂ (pySplitAmong files n₂)) (kw : String) :
    List.Perm (dGetD (parallel_file_search_threading fs kws o₁) kw)
      (dGetD (parallel_file_search_multiprocessing fs kws o₂) kw) :=
  (parallelFinal_perm_seq _ files h1 ho₁ kw).trans
    (parallelFinal_perm_seq _ files h2 ho₂ kw).symm

/-- Witness for C2: threading with two workers completing in reversed order
versus multiprocessing with a single worker. -/
theorem C2_witness :
    List.Perm
      (dGetD (parallel_file_search_threading fsW ["python"] [["b"], ["a"]]) "python")
      (dGetD (parallel_file_search_multiprocessing fsW ["python"] [["a", "b"]]) "python") := by
  have hsplit1 : pySplitAmong ["a", "b"] 2 = [["a"], ["b"]] := by
    simp [pySplitAmong, pyStride, List.range_succ]
  have hsplit2 : pySplitAmong ["a", "b"] 1 = [["a", "b"]] := by
    simp [pySplitAmong, pyStride, List.range_succ]
  exact C2_thread_process_equiv fsW ["python"] ["a", "b"] 2 1 (by omega) (by omega)
    [["b"], ["a"]] [["a", "b"]]
    (by rw [hsplit1]; exact List.Perm.swap _ _ _)
    (by rw [hsplit2]) "python"

/-- C3: the second-generation workers call `search_keywords_in_file(file,
keywords, logger)` with three arguments, but the file_utils definition takes
two, so every per-file call raises `TypeError`; the surrounding `try/except`
catches it and the worker moves on, so every local result and every final
result of `thread_search.py` / `process_search.py` is the empty dict. -/
theorem C3_v2_results_empty (fs : String → Option (List Char))
    (kws : List String) (files : List String) (order : List (List String))
    (f' : String) :
    callFileUtilsSearch fs 3 f' kws =
      Except.error "TypeError: search_keywords_in_file() takes 2 positional arguments but 3 were given" ∧
    thread_search_v2 fs kws files = [] ∧
    process_search_v2 fs kws files = [] ∧
    parallel_file_search_threading_v2 fs kws order = [] ∧
    parallel_file_search_multiprocessing_v2 fs kws order = [] := by
  have hcall : ∀ g, callFileUtilsSearch fs 3 g kws =
      Except.error "TypeError: search_keywords_in_file() takes 2 positional arguments but 3 were given" := by
    intro g
    rw [callFileUtilsSearch, if_neg (by rw [fileUtilsSearchParamCount]; omega)]
  have hlocal : ∀ (files' : List String) (acc : Dict),
      workerLocalV2Go fs kws acc files' = acc := by
    intro files'
    induction files' with
    | nil => intro acc; rfl
    | cons g rest ih =>
      intro acc
      rw [workerLocalV2Go]
      simp only [hcall]
      exact ih _
  have hfold : ∀ (os : List (List String)),
      foldResults (os.map (fun _ => ([] : Dict))) = [] := by
    intro os
    rw [foldResults]
    induction os with
    | nil => rfl
    | cons s rest ih => rw [List.map_cons, foldResultsGo, dExtendGo_nil_right]; exact ih
  have hthread : ∀ s, thread_search_v2 fs kws s = [] := fun s => hlocal s []
  have hproc : ∀ s, process_search_v2 fs kws s = [] := fun s => hlocal s []
  refine ⟨hcall f', hthread files, hproc files, ?_, ?_⟩
  · rw [parallel_file_search_threading_v2,
      List.map_congr_left (fun s _ => hthread s), hfold]
  · rw [parallel_file_search_multiprocessing_v2,
      List.map_congr_left (fun s _ => hproc s), hfold]

/-- C4: round-robin partition puts the item at original index `k + j·n` at
position `j` of shard `k`, and the concatenation of all shards is a
permutation of the input — nothing duplicated or dropped (determinism is
immediate since the split is a pure function of `items` and `n`). -/
theorem C4_partition_complete {α : Type} (items : List α) (n : Nat)
    (hn : 1 ≤ n) :
    (∀ k j : Nat, k < n →
      ((pySplitAmong items n)[k]?.getD [])[j]? = items[k + j * n]?) ∧
    List.Perm (pySplitAmong items n).flatten items := by
  obtain ⟨m, rfl⟩ : ∃ m, n = m + 1 := ⟨n - 1, by omega⟩
  refine ⟨?_, pySplitAmong_flatten_perm m items⟩
  intro k j hk
  rw [pySplitAmong_getElem? items (m + 1) hk, Option.getD_some,
    pyStride_getElem? m j, List.getElem?_drop]

/-- Witness for C4 on a three-item list split across two workers. -/
theorem C4_witness :
    ((pySplitAmong ["a", "b", "c"] 2)[1]?.getD [])[0]? = some "b" ∧
    List.Perm (pySplitAmong ["a", "b", "c"] 2).flatten ["a", "b", "c"] := by
  have h := C4_partition_complete ["a", "b", "c"] 2 (by omega)
  refine ⟨?_, h.2⟩
  have h1 := h.1 1 0 (by omega)
  simpa using h1

/-- Counterexample to C5 as stated: on an empty item list with worker count
2 the comprehension `[items[i::n] for i in range(n)]` yields two (empty)
shards, not zero shards. -/
theorem C5_cex :
    pySplitAmongZ ([] : List String) 2 = [[], []] ∧
    pySplitAmongZ ([] : List String) 2 ≠ [] := by
  have h : pySplitAmongZ ([] : List String) 2 = [[], []] := by
    rw [pySplitAmongZ, if_neg (by omega)]
    show pySplitAmong ([] : List String) 2 = [[], []]
    simp [pySplitAmong, pyStride, List.range_succ]
  exact ⟨h, by rw [h]; simp⟩

/-- C5 (amended): the split yields zero shards when `n ≤ 0` (since
`range(n)` is empty); on an empty item list with `n > 0` it yields `n`
empty shards (not zero shards); with `n = 1` it yields exactly one shard
holding every item in order. -/
theorem C5_partition_edge_cases (items : List String) (n : Int) :
    (n ≤ 0 → pySplitAmongZ items n = []) ∧
    (0 < n → pySplitAmongZ ([] : List String) n = List.replicate n.toNat []) ∧
    pySplitAmongZ items 1 = [items] := by
  refine ⟨fun h => by rw [pySplitAmongZ, if_pos h], fun h => ?_, ?_⟩
  · rw [pySplitAmongZ, if_neg (by omega)]
    rw [pySplitAmong]
    have h1 : ∀ i ∈ List.range n.toNat,
        pyStride n.toNat (List.drop i ([] : List String)) = ([] : List String) := by
      intro i _
      simp [pyStride_nil]
    rw [List.map_congr_left h1]
    simp [List.map_const', List.length_range]
  · rw [pySplitAmongZ, if_neg (by omega)]
    show pySplitAmong items 1 = [items]
    rw [pySplitAmong, show List.range 1 = [0] from rfl, List.map_cons,
      List.map_nil, List.drop_zero, pyStride_one]

/-- Witness for C5 (amended) at concrete inputs. -/
theorem C5_witness :
    pySplitAmongZ (["x"] : List String) (-1) = [] ∧
    pySplitAmongZ ([] : List String) 3 = [[], [], []] ∧
    pySplitAmongZ (["x", "y"] : List String) 1 = [["x", "y"]] := by
  refine ⟨(C5_partition_edge_cases ["x"] (-1)).1 (by omega), ?_,
    (C5_partition_edge_cases ["x", "y"] 1).2.2⟩
  have h := (C5_partition_edge_cases ["x"] 3).2.1 (by omega)
  simpa using h

/-- Counterexample to C6 as stated: the file_utils scanner splits lines with
`splitlines`, which also breaks on `'\x0b'`; on the one-line file
`"a\x0bpython\n"` it records `"f:line 2"` although the keyword sits on the
only `'\n'`-delimited line, line 1. -/
theorem C6_cex :
    dGetD (search_keywords_in_file_utils fsC6 "f" ["python"]) "python" = ["f:line 2"] ∧
    matchLocs "f" "python" 1 (pyLines contentC6) = ["f:line 1"] ∧
    (pyLines contentC6).length = 1 ∧
    ("f:line 2" : String) ≠ "f:line 1" := by
  have hchunks : pyChunks bufferSize contentC6 = [contentC6] := by
    rw [pyChunks_single (by rw [bufferSize]; omega) (by decide)]
    rw [if_neg (by decide)]
  refine ⟨?_, by decide, by decide, by decide⟩
  rw [search_keywords_in_file_utils]
  show dGetD (dropEmpty (scanLinesGo "f" ["python"] 1
      (((pyChunks bufferSize contentC6).map pySplitlines).flatten)
      (dInit ["python"]))) "python" = ["f:line 2"]
  rw [hchunks]
  decide

/-- C6 (amended): for the line-iterating main.py scanner, a location is
recorded for keyword `kw` exactly when it is `"<path>:line <N>"` with `N`
the 1-indexed `'\n'`-delimited line whose text contains the keyword; the
chunked file_utils scanner agrees whenever the content fits in one 1MB read
and all its line-break characters are `'\n'` (otherwise `splitlines`
boundary characters, or a line spanning a chunk boundary, shift the counted
line numbers). -/
theorem C6_line_numbers (fs : String → Option (List Char)) (path : String)
    (content : List Char) (kws : List String) (kw : String) (loc : String)
    (hf : fs path = some content) (hc : kws.count kw = 1) :
    (loc ∈ dGetD (search_keywords_in_file_main fs path kws) kw ↔
      ∃ i line, (pyLines content)[i]? = some line ∧
        lineMatches kw line = true ∧ loc = mkLoc path (i + 1)) ∧
    (content.length ≤ bufferSize → (∀ c ∈ content, isLB c = true → c = '\n') →
      search_keywords_in_file_utils fs path kws =
        search_keywords_in_file_main fs path kws) := by
  constructor
  · rw [search_main_eq_matchLocs fs hf hc]
    rw [mem_matchLocs]
    constructor
    · rintro ⟨i, line, h1, h2, h3⟩
      exact ⟨i, line, h1, h2, by rw [h3]; congr 1; omega⟩
    · rintro ⟨i, line, h1, h2, h3⟩
      exact ⟨i, line, h1, h2, by rw [h3]; congr 1; omega⟩
  · intro hlen hnl
    exact search_utils_eq_search_main fs path kws hf hlen hnl

/-- Witness for C6 (amended): a 3-line file whose keyword occurs only on
line 2 yields exactly `"f:line 2"`, and both scanners agree on it. -/
theorem C6_witness :
    dGetD (search_keywords_in_file_main fs3 "f" ["key"]) "key" = ["f:line 2"] ∧
    ("f:line 2" ∈ dGetD (search_keywords_in_file_main fs3 "f" ["key"]) "key") ∧
    search_keywords_in_file_utils fs3 "f" ["key"] =
      search_keywords_in_file_main fs3 "f" ["key"] := by
  have h := C6_line_numbers fs3 "f" "alpha\nkey beta\ngamma\n".data ["key"]
    "key" "f:line 2" (by decide) (by decide)
  refine ⟨by decide, ?_, h.2 (by decide) (by decide)⟩
  exact (h.1).2 ⟨1, "key beta\n".data, by decide, by decide, by decide⟩

/-- C7: an unreadable path is caught inside the scanner (both generations)
and contributes an empty per-file result, and the parallel search over a
list holding one bad path among valid files returns, per keyword, exactly
the multiset of matches of the valid files. -/
theorem C7_bad_file_tolerated (fs : String → Option (List Char))
    (kws : List String) (bad : String) (l1 l2 : List String) (n : Nat)
    (hn : 1 ≤ n) (order : List (List String))
    (horder : List.Perm order (pySplitAmong (l1 ++ bad :: l2) n))
    (hbad : fs bad = none) (kw : String) :
    search_keywords_in_file_main fs bad kws = [] ∧
    search_keywords_in_file_utils fs bad kws = [] ∧
    List.Perm (dGetD (parallel_file_search_threading fs kws order) kw)
      (dGetD (workerLocal (fun f => search_keywords_in_file_main fs f kws)
        (l1 ++ l2)) kw) := by
  refine ⟨search_main_of_unreadable fs kws hbad,
    search_utils_of_unreadable fs kws hbad, ?_⟩
  have h := parallelFinal_perm_seq
    (fun f => search_keywords_in_file_main fs f kws) (l1 ++ bad :: l2) hn
    horder kw
  rw [workerLocal_skip_unreadable _ (search_main_of_unreadable fs kws hbad)
    l1 l2] at h
  exact h

/-- Witness for C7: path "zzz" does not resolve in `fsW`; the search over
`["a", "zzz", "b"]` returns exactly the matches of "a" and "b". -/
theorem C7_witness :
    search_keywords_in_file_main fsW "zzz" ["python"] = [] ∧
    List.Perm
      (dGetD (parallel_file_search_threading fsW ["python"] [["a", "b"], ["zzz"]]) "python")
      (dGetD (workerLocal (fun f => search_keywords_in_file_main fsW f ["python"])
        ["a", "b"]) "python") := by
  have hsplit : pySplitAmong ["a", "zzz", "b"] 2 = [["a", "b"], ["zzz"]] := by
    simp [pySplitAmong, pyStride, List.range_succ]
  have h := C7_bad_file_tolerated fsW ["python"] "zzz" ["a"] ["b"] 2 (by omega)
    [["a", "b"], ["zzz"]]
    (by show List.Perm [["a", "b"], ["zzz"]] (pySplitAmong ["a", "zzz", "b"] 2)
        rw [hsplit])
    (by decide) "python"
  exact ⟨h.1, h.2.2⟩

/-- C8: a line is recorded for a keyword exactly when the lowercased keyword
is a substring of the lowercased line, both as a per-line criterion and
through the scanner's output. -/
theorem C8_case_insensitive_containment (fs : String → Option (List Char))
    (path : String) (content : List Char) (kws : List String) (kw : String)
    (loc : String) (hf : fs path = some content) (hc : kws.count kw = 1) :
    (∀ line : List Char, lineMatches kw line = true ↔
      (kw.data.map Char.toLower) <:+: (line.map Char.toLower)) ∧
    (loc ∈ dGetD (search_keywords_in_file_main fs path kws) kw ↔
      ∃ i line, (pyLines content)[i]? = some line ∧
        (kw.data.map Char.toLower) <:+: (line.map Char.toLower) ∧
        loc = mkLoc path (i + 1)) := by
  have hiff : ∀ line : List Char, lineMatches kw line = true ↔
      (kw.data.map Char.toLower) <:+: (line.map Char.toLower) := by
    intro line
    rw [lineMatches, strIn_iff]
  refine ⟨hiff, ?_⟩
  rw [search_main_eq_matchLocs fs hf hc, mem_matchLocs]
  constructor
  · rintro ⟨i, line, h1, h2, h3⟩
    exact ⟨i, line, h1, (hiff line).1 h2, by rw [h3]; congr 1; omega⟩
  · rintro ⟨i, line, h1, h2, h3⟩
    exact ⟨i, line, h1, (hiff line).2 h2, by rw [h3]; congr 1; omega⟩

/-- Witness for C8: a file containing `"Python"` matches keyword
`"python"`. -/
theorem C8_witness :
    lineMatches "python" "Python is fun\n".data = true ∧
    ("f:line 1" ∈ dGetD (search_keywords_in_file_main fsP "f" ["python"]) "python") := by
  have h := C8_case_insensitive_containment fsP "f" "Python is fun\n".data
    ["python"] "python" "f:line 1" (by decide) (by decide)
  exact ⟨(h.1 "Python is fun\n".data).2 (by decide),
    h.2.2 ⟨0, "Python is fun\n".data, by decide, by decide, by decide⟩⟩

/-- C9: each per-file scan returns only keywords with at least one match
(no empty lists), the FinalResult likewise holds only non-empty location
lists, and a keyword matched by no file in any shard is absent from the
FinalResult (no key at all, rather than an empty list). -/
theorem C9_only_matched_keywords (fs : String → Option (List Char))
    (kws : List String) (path : String) (kw : String)
    (order : List (List String)) :
    (∀ p ∈ search_keywords_in_file_main fs path kws, p.2 ≠ []) ∧
    (∀ p ∈ search_keywords_in_file_utils fs path kws, p.2 ≠ []) ∧
    (∀ p ∈ parallel_file_search_threading fs kws order, p.2 ≠ []) ∧
    ((∀ shard ∈ order, ∀ f ∈ shard,
        dGet? (search_keywords_in_file_main fs f kws) kw = none) →
      dGet? (parallel_file_search_threading fs kws order) kw = none) := by
  have hmainvals : ∀ path', ∀ p ∈ search_keywords_in_file_main fs path' kws,
      p.2 ≠ [] := by
    intro path' p hp
    rw [search_keywords_in_file_main] at hp
    cases hfs : fs path' with
    | none => rw [hfs] at hp; exact mem_dropEmpty_vals hp
    | some c => rw [hfs] at hp; exact mem_dropEmpty_vals hp
  have hutilsvals : ∀ p ∈ search_keywords_in_file_utils fs path kws,
      p.2 ≠ [] := by
    intro p hp
    rw [search_keywords_in_file_utils] at hp
    cases hfs : fs path with
    | none => rw [hfs] at hp; exact mem_dropEmpty_vals hp
    | some c => rw [hfs] at hp; exact mem_dropEmpty_vals hp
  refine ⟨hmainvals path, hutilsvals, ?_, ?_⟩
  · intro p hp
    rw [parallel_file_search_threading, parallelFinal, foldResults] at hp
    refine foldResultsGo_vals_ne_nil _ ?_ [] (by simp) p hp
    intro d hd
    obtain ⟨shard, _, rfl⟩ := List.mem_map.1 hd
    exact workerLocalGo_vals_ne_nil _ (fun f => hmainvals f) shard [] (by simp)
  · intro habsent
    rw [parallel_file_search_threading, parallelFinal, foldResults]
    refine dGet?_foldResultsGo_none _ [] rfl ?_
    intro d hd
    obtain ⟨shard, hshard, rfl⟩ := List.mem_map.1 hd
    exact dGet?_workerLocalGo_none _ shard [] rfl
      (fun f hf => habsent shard hshard f hf)

/-- Witness for C9: keyword "zzz" matches no file, so it is absent from the
FinalResult, while all present entries are non-empty. -/
theorem C9_witness :
    (∀ p ∈ search_keywords_in_file_main fsW "a" ["python", "zzz"], p.2 ≠ []) ∧
    dGet? (parallel_file_search_threading fsW ["python", "zzz"]
      [["a"], ["b"]]) "zzz" = none := by
  have h := C9_only_matched_keywords fsW ["python", "zzz"] "a" "zzz"
    [["a"], ["b"]]
  exact ⟨h.1, h.2.2.2 (by decide)⟩

/-- Counterexample to C10 as stated: with one file and two requested
workers, the loops start one worker per shard — two workers, one of them
for an empty shard — not one worker per non-empty shard. -/
theorem C10_cex :
    workersLaunched ["a"] 2 = 2 ∧
    (pySplitAmong ["a"] 2)[1]? = some [] ∧
    (2 : Nat) ≠ 1 := by
  have hsplit : pySplitAmong ["a"] 2 = [["a"], []] := by
    simp [pySplitAmong, pyStride, List.range_succ]
  rw [workersLaunched, hsplit]
  exact ⟨rfl, rfl, by omega⟩

/-- C10 (amended): both pools launch exactly one worker per shard — empty
shards included — so the number of workers launched equals the requested
worker count `n`, regardless of how many files there are. -/
theorem C10_workers_eq_requested (files : List String) (n : Nat) :
    workersLaunched files n = n := by
  rw [workersLaunched, pySplitAmong, List.length_map, List.length_range]
